import Mathlib

/-!
Verification development for the DistriBERT-FastApi hybrid classification
and caching service.

The definitions below are shallow embeddings of the Python source:
* `src/models/distilbert_handler.py` — keyword scoring, hybrid fusion,
  context selection, batch classification, fallback classification;
* `src/models/qa_handler.py` — `QACache` and `QAHandler.extract_answer`;
* `src/utils/helpers.py` — `SimpleCache`;
* `src/main.py` — the classification endpoint's cache interaction;
* `src/models/response_generator.py` — mode routing and knowledge
  response generation;
* `src/config.py` — intent labels, keyword table, intent partition.

Machine floats are modelled as exact rationals (both the code and the
properties use only +, *, /, min and comparisons, where exact arithmetic
agrees with the structure under scrutiny), wall-clock instants as `Int`
(seconds), and the two external ML pipelines (text classifier, extractive
QA) as oracle parameters, matching their narrow contracts.
-/

namespace DistriBert

/-! ## String primitives

Python string operations used by the source, modelled on `List Char`.
`lowerStr` is `str.lower()`, `stripWs` is `str.strip()`, `occursIn` is the
`in` substring test, `startsWithL`/`endsWithL` are `str.startswith` /
`str.endswith`. -/

def lowerStr (s : String) : List Char := s.data.map Char.toLower

def isPySpace (c : Char) : Bool :=
  c = ' ' ∨ c = '\t' ∨ c = '\n' ∨ c = '\r'

def stripWs (l : List Char) : List Char :=
  ((l.dropWhile isPySpace).reverse.dropWhile isPySpace).reverse

/-- The pattern `pat` occurs in `s` starting at position `i`. -/
def subAt (pat s : List Char) (i : Nat) : Bool :=
  decide ((s.drop i).take pat.length = pat)

/-- Python's substring containment `pat in s`. -/
def occursIn (pat s : List Char) : Bool :=
  (List.range (s.length + 1)).any (fun i => subAt pat s i)

/-- Python's `s.startswith(pat)`. -/
def startsWithL (pat s : List Char) : Bool := subAt pat s 0

/-- Python's `s.endswith(pat)`. -/
def endsWithL (pat s : List Char) : Bool :=
  decide (pat.length ≤ s.length) && subAt pat s (s.length - pat.length)

/-! ## Configuration (`src/config.py`) -/

/-- Model of `Settings.intent_labels` (config.py lines 18–36). -/
def intentLabels : List String :=
  ["product_features", "product_technical_specs", "product_integration",
   "product_ai_capabilities", "product_security", "product_customization",
   "pricing_basic", "pricing_professional", "pricing_enterprise",
   "pricing_api", "pricing_add_ons", "pricing_comparison",
   "setup_guide", "integration_guide", "optimization_guide",
   "troubleshooting_guide", "advanced_features", "deployment_strategies",
   "privacy_policy", "terms_of_service", "data_retention",
   "security_policy", "compliance_standards",
   "account_creation", "account_management", "billing_support", "account_security",
   "company_about", "company_team", "company_careers",
   "conversational_greeting", "conversational_thanks", "conversational_goodbye",
   "conversational_chitchat", "conversational_feedback",
   "unknown"]

/-- Model of `Settings.qa_confidence_threshold` (config.py line 39). -/
def qaConfidenceThreshold : ℚ := 3/10

/-- Model of `INTENT_KEYWORDS` (config.py lines 70–131), in source order. -/
def INTENT_KEYWORDS : List (String × List String) :=
  [("product_features", ["features", "capabilities", "functionality", "what can", "platform", "ai", "chatbot"]),
   ("product_technical_specs", ["technical", "specs", "requirements", "architecture", "performance", "cpu", "memory"]),
   ("product_integration", ["integration", "api", "connect", "crm", "platforms", "third party", "webhook"]),
   ("product_ai_capabilities", ["ai", "artificial intelligence", "nlp", "machine learning", "sentiment", "language"]),
   ("product_security", ["security", "encryption", "privacy", "gdpr", "compliance", "authentication"]),
   ("product_customization", ["customize", "branding", "white label", "theme", "personality", "configuration"]),
   ("pricing_basic", ["basic plan", "starter", "small business", "cheap", "affordable", "29", "39"]),
   ("pricing_professional", ["professional", "business", "99", "129", "growing", "advanced"]),
   ("pricing_enterprise", ["enterprise", "unlimited", "custom", "499", "large", "organization"]),
   ("pricing_api", ["api pricing", "pay per use", "developer", "calls", "usage based"]),
   ("pricing_add_ons", ["add-on", "additional", "extra", "premium", "voice", "analytics"]),
   ("pricing_comparison", ["compare", "difference", "plans", "which plan", "vs", "versus"]),
   ("setup_guide", ["setup", "getting started", "how to start", "configuration", "initial"]),
   ("integration_guide", ["how to integrate", "connect", "embed", "implementation"]),
   ("optimization_guide", ["optimize", "improve", "performance", "best practices"]),
   ("troubleshooting_guide", ["troubleshoot", "problem", "issue", "error", "not working"]),
   ("advanced_features", ["advanced", "custom", "sophisticated", "complex"]),
   ("deployment_strategies", ["deploy", "production", "rollout", "implementation"]),
   ("privacy_policy", ["privacy", "data collection", "personal information"]),
   ("terms_of_service", ["terms", "conditions", "agreement", "usage policy"]),
   ("data_retention", ["data retention", "how long", "storage", "delete"]),
   ("security_policy", ["security policy", "protection", "safety"]),
   ("compliance_standards", ["compliance", "certification", "standards", "audit"]),
   ("account_creation", ["create account", "sign up", "register", "new account"]),
   ("account_management", ["manage account", "profile", "settings", "update"]),
   ("billing_support", ["billing", "payment", "invoice", "refund", "subscription"]),
   ("account_security", ["account security", "password", "login", "authentication"]),
   ("company_about", ["about", "company", "who are you", "background", "story"]),
   ("company_team", ["team", "employees", "staff", "founders", "leadership"]),
   ("company_careers", ["career", "job", "hiring", "work", "employment"]),
   ("conversational_greeting", ["halo", "hai", "hello", "hi", "selamat pagi", "selamat siang", "good morning", "good afternoon", "hey", "morning"]),
   ("conversational_thanks", ["terima kasih", "thanks", "thank you", "appreciate", "grateful"]),
   ("conversational_goodbye", ["selamat tinggal", "goodbye", "bye", "see you", "sampai jumpa", "take care", "farewell"]),
   ("conversational_chitchat", ["bagaimana kabar", "apa kabar", "how are you", "what\x27s up", "nice to meet"]),
   ("conversational_feedback", ["feedback", "suggestion", "comment", "opinion", "review"])]

/-- Model of `KNOWLEDGE_INTENTS` (config.py lines 134–145). -/
def KNOWLEDGE_INTENTS : List String :=
  ["product_features", "product_technical_specs", "product_integration",
   "product_ai_capabilities", "product_security", "product_customization",
   "pricing_basic", "pricing_professional", "pricing_enterprise",
   "pricing_api", "pricing_add_ons", "pricing_comparison",
   "setup_guide", "integration_guide", "optimization_guide",
   "troubleshooting_guide", "advanced_features", "deployment_strategies",
   "privacy_policy", "terms_of_service", "data_retention",
   "security_policy", "compliance_standards",
   "account_creation", "account_management", "billing_support", "account_security",
   "company_about", "company_team", "company_careers"]

/-- Model of `CONVERSATIONAL_INTENTS` (config.py lines 148–151). -/
def CONVERSATIONAL_INTENTS : List String :=
  ["conversational_greeting", "conversational_thanks", "conversational_goodbye",
   "conversational_chitchat", "conversational_feedback"]

/-! ## Keyword classification (`distilbert_handler.py` lines 391–424) -/

/-- A classification result: the `intent`, `confidence`, `source` fields of
the dicts produced by `DistilBERTHandler` (further diagnostic fields of the
Python dicts are not modelled). -/
structure ClassResultM where
  intent : String
  confidence : ℚ
  source : String
deriving DecidableEq

/-- The code's whole-word test in `_keyword_classification` (lines 404–407):
`f" {kw} " in f" {text.lower()} "` or `text.lower().startswith(kw)` or
`text.lower().endswith(kw)`. -/
def isExactWord (kw tl : List Char) : Bool :=
  occursIn (' ' :: (kw ++ [' '])) (' ' :: (tl ++ [' '])) ||
  startsWithL kw tl || endsWithL kw tl

/-- Per-intent score from `_keyword_classification` (lines 396–414):
base = matches / |keywords|, plus 0.15 per exact word match, capped at 1;
0 when no keyword is a substring of the lower-cased text. -/
def intentScore (text : String) (kws : List String) : ℚ :=
  let tl := lowerStr text
  let ms := kws.filter (fun kw => occursIn kw.data tl)
  if ms.isEmpty then 0
  else
    let base : ℚ := (ms.length : ℚ) / (kws.length : ℚ)
    let exact : Nat := ms.countP (fun kw => isExactWord kw.data tl)
    min (base + (exact : ℚ) * (3/20)) 1

/-- Python's `max(xs, key=score)` over a (key, score) list: the first
element attaining the maximal score. -/
def argmaxFirst : List (String × ℚ) → String × ℚ
  | [] => ("unknown", 0)
  | x :: xs => xs.foldl (fun b y => if y.2 > b.2 then y else b) x

/-- Model of `_keyword_classification` (lines 391–424): best-scoring intent
(`unknown` when the best score is 0), confidence `min(score * 1.1, 0.9)`. -/
def keywordClassification (text : String) : ClassResultM :=
  let scores := INTENT_KEYWORDS.map (fun p => (p.1, intentScore text p.2))
  let best := argmaxFirst scores
  ⟨if best.2 > 0 then best.1 else "unknown",
   min (best.2 * (11/10)) (9/10), "keyword_matching"⟩

/-- Model of `_fallback_classification` (lines 428–438); the modelled fields are
constant, the arguments mirror the Python signature. -/
def fallbackClassification (_text _errorMsg : String) : ClassResultM :=
  ⟨"unknown", 1/10, "fallback_error"⟩


/-! ## Label mapping and hybrid fusion (`distilbert_handler.py` lines 287–330, 364–389) -/

/-- Python's `s.split(sep)` for a one-character separator. -/
def splitOnChar (sep : Char) : List Char → List (List Char)
  | [] => [[]]
  | c :: rest =>
    let r := splitOnChar sep rest
    if c = sep then [] :: r
    else
      match r with
      | [] => [[c]]
      | g :: gs => (c :: g) :: gs

/-- Python's `int(s)` restricted to plain digit strings (the only shape the
classifier's `LABEL_i` labels produce; other accepted `int()` spellings such
as signs or surrounding whitespace also never reach a valid label index). -/
def digitsToNat? (l : List Char) : Option Nat :=
  if l ≠ [] ∧ l.all Char.isDigit then
    some (l.foldl (fun n c => n * 10 + (c.toNat - 48)) 0)
  else none

/-- Model of `_map_label_to_intent` (lines 364–389). A `LABEL_i` label with
`i < len(intent_labels)` maps to `intent_labels[i]`. Every other label falls
through to the context-based branch, which indexes `INTENT_KEYWORDS` with
the key `jadwal_kuliah` — a key the configured table does not contain — and
therefore raises `KeyError`; `none` models that exception (it is caught by
the caller `_hybrid_intent_classification`, which then returns the keyword
result). -/
def mapLabelToIntent (label : String) : Option String :=
  if startsWithL "LABEL_".data label.data then
    match (splitOnChar '_' label.data).get? 1 with
    | some s =>
      match digitsToNat? s with
      | some idx => intentLabels.get? idx
      | none => none
    | none => none
  else none

/-- Model of `_hybrid_intent_classification` (lines 287–330). The external
classifier is an oracle: `none` models a raised exception or an empty
result list, `some (label, score)` the top-scoring entry of its output
(the claims only concern the fusion logic downstream of the classifier). -/
def hybridIntentClassification (text : String) (neural : Option (String × ℚ)) :
    ClassResultM :=
  match neural with
  | none => keywordClassification text
  | some (label, nconf) =>
    match mapLabelToIntent label with
    | none => keywordClassification text
    | some nIntent =>
      let kr := keywordClassification text
      if nIntent = kr.intent ∧ nconf > 2/5 ∧ kr.confidence > 3/10 then
        ⟨nIntent, min (nconf * (11/10)) (17/20), "hybrid_classification"⟩
      else if kr.confidence > nconf then
        ⟨kr.intent, kr.confidence, "keyword_classification"⟩
      else
        ⟨nIntent, nconf, "neural_classification"⟩

/-- Intent component of `_select_best_context` (lines 247–264): the first
intent with the maximal positive keyword-occurrence count, and
`faq_informasi` when no keyword of any intent occurs in the text. -/
def selectBestContextIntent (text : String) : String :=
  let tl := lowerStr text
  let scores := INTENT_KEYWORDS.filterMap (fun p =>
    if 0 < p.2.countP (fun kw => occursIn kw.data tl) then
      some (p.1, (p.2.countP (fun kw => occursIn kw.data tl) : Int))
    else none)
  match scores with
  | [] => "faq_informasi"
  | x :: xs => (xs.foldl (fun b y => if y.2 > b.2 then y else b) x).1

/-! ## Mode routing (`response_generator.py` lines 162–169) -/

/-- Model of `HybridResponseGenerator._determine_mode`. -/
def determineMode (intent : String) (confidence : ℚ) : String :=
  if intent ∈ CONVERSATIONAL_INTENTS then "conversational"
  else if intent ∈ KNOWLEDGE_INTENTS ∧ confidence > qaConfidenceThreshold then "knowledge"
  else "fallback"


/-! ## Generic bounded-cache primitives

Both Python caches are `dict`s; a `dict` is modelled as a list of entries in
insertion order (`d[k] = v` replaces in place when `k` is present, else
appends; `del d[k]` removes the entry; iteration order is insertion order).
-/

/-- Removal of the entry `min(keys, key=timestamp)` — Python's `min` returns
the first element attaining the minimal timestamp, and `del` removes it. -/
def removeOldestBy (ts : α → Int) : List α → List α
  | [] => []
  | e :: es => if es.all (fun x => ¬ ts x < ts e) then es else e :: removeOldestBy ts es

/-- Python dict assignment `d[k] = e`: replace in place when the key is
present, append otherwise. -/
def setKeyBy (keyOf : α → String) (k : String) (e : α) : List α → List α
  | [] => [e]
  | x :: xs => if keyOf x = k then e :: xs else x :: setKeyBy keyOf k e xs

/-- Common write step of both caches: when `size ≥ capacity`, first evict
the single oldest-by-timestamp entry, then insert the new entry
(`QACache.set`, qa_handler.py lines 63–75; `SimpleCache.set` after its
cleanup, helpers.py lines 155–163). -/
def slideInsertBy (ts : α → Int) (keyOf : α → String) (cap : Nat)
    (l : List α) (e : α) : List α :=
  setKeyBy keyOf (keyOf e) e (if cap ≤ l.length then removeOldestBy ts l else l)

/-! ## QACache (`qa_handler.py` lines 14–94) -/

/-- Modelled fields of a `QAResult` (qa_handler.py lines 14–23): the claims
concern `answer`, `confidence` and `model_confidence`; the span and timing
fields are carried by neither cache policy nor fusion logic. -/
structure QAResultM where
  answer : String
  confidence : ℚ
  modelConfidence : ℚ
deriving DecidableEq

/-- One `CacheEntry` of `QACache` (qa_handler.py lines 25–30), tagged with
its dict key. -/
structure QAEntry where
  key : String
  timestamp : Int
  ttl : Int
  value : QAResultM
deriving DecidableEq

/-- State of a `QACache` (qa_handler.py lines 32–45). -/
structure QACacheState where
  entries : List QAEntry
  maxSize : Nat
  defaultTtl : Int
  hits : Nat
  misses : Nat

/-- Fresh `QACache(max_size, default_ttl)`. -/
def qaEmpty (cap : Nat) (dttl : Int) : QACacheState := ⟨[], cap, dttl, 0, 0⟩

/-- Model of `QACache._generate_key` (lines 42–45): the md5 hex digest of
`f"{question}||{context}"` is modelled by the combined string itself
(the digest is injective on the inputs relevant here). -/
def qaGenKey (question context : String) : String := question ++ "||" ++ context

/-- Python's `ttl or self.default_ttl` (line 74): `None` and `0` are falsy. -/
def resolveTtl (ttl : Option Int) (dttl : Int) : Int :=
  match ttl with
  | some t => if t = 0 then dttl else t
  | none => dttl

/-- Model of `QACache.set` (lines 63–75). -/
def qaSet (s : QACacheState) (question context : String) (v : QAResultM)
    (ttl : Option Int) (now : Int) : QACacheState :=
  let e : QAEntry := ⟨qaGenKey question context, now, resolveTtl ttl s.defaultTtl, v⟩
  { s with entries := slideInsertBy QAEntry.timestamp QAEntry.key s.maxSize s.entries e }

/-- Model of `QACache.get` (lines 47–61): hit when the entry's age is
strictly below its ttl; an expired entry is deleted and counted as a miss. -/
def qaGet (s : QACacheState) (question context : String) (now : Int) :
    Option QAResultM × QACacheState :=
  let key := qaGenKey question context
  match s.entries.find? (fun e => e.key = key) with
  | some e =>
    if now - e.timestamp < e.ttl then (some e.value, { s with hits := s.hits + 1 })
    else
      (none, { s with
               entries := s.entries.filter (fun x => ¬ x.key = key)
               misses := s.misses + 1 })
  | none => (none, { s with misses := s.misses + 1 })

/-- Model of `QACache.clear` (lines 77–81). -/
def qaClear (s : QACacheState) : QACacheState :=
  { s with entries := [], hits := 0, misses := 0 }

/-! ## SimpleCache (`helpers.py` lines 110–177) -/

/-- One entry of `SimpleCache`: the synchronized pair of `self.cache[key]`
and `self.timestamps[key]`. -/
structure SCEntry where
  key : String
  timestamp : Int
  value : ClassResultM
deriving DecidableEq

/-- State of a `SimpleCache(max_size, ttl_seconds)`. -/
structure SimpleCacheState where
  entries : List SCEntry
  maxSize : Nat
  ttlSeconds : Int

/-- Fresh `SimpleCache(max_size, ttl_seconds)`. -/
def scEmpty (cap : Nat) (ttl : Int) : SimpleCacheState := ⟨[], cap, ttl⟩

/-- Model of `SimpleCache._get_cache_key` (lines 119–121): the md5 hex
digest of `text.lower().strip()`, modelled by the normalized text itself. -/
def scGenKey (text : String) : String := String.mk (stripWs (lowerStr text))

/-- Model of `SimpleCache._cleanup_expired` (lines 129–139): drop every
entry strictly older than `ttl_seconds`. -/
def scCleanup (s : SimpleCacheState) (now : Int) : SimpleCacheState :=
  { s with entries := s.entries.filter (fun e => ¬ now - e.timestamp > s.ttlSeconds) }

/-- Model of `SimpleCache.set` (lines 150–163): cleanup, then evict the
oldest entry if at capacity, then insert. -/
def scSet (s : SimpleCacheState) (text : String) (v : ClassResultM) (now : Int) :
    SimpleCacheState :=
  let s1 := scCleanup s now
  let e : SCEntry := ⟨scGenKey text, now, v⟩
  { s1 with entries := slideInsertBy SCEntry.timestamp SCEntry.key s.maxSize s1.entries e }

/-- Model of `SimpleCache.get` (lines 141–148): hit when the key is present
and its age is at most `ttl_seconds`. The source's `get` never mutates the
store (expired entries are removed only by `set`'s cleanup), which the
state-free type records. -/
def scGet (s : SimpleCacheState) (text : String) (now : Int) : Option ClassResultM :=
  match s.entries.find? (fun e => e.key = scGenKey text) with
  | some e => if ¬ now - e.timestamp > s.ttlSeconds then some e.value else none
  | none => none

/-- Model of `SimpleCache.clear` (lines 165–168). -/
def scClear (s : SimpleCacheState) : SimpleCacheState := { s with entries := [] }

/-! ## Answer extraction (`qa_handler.py` lines 159–241) -/

/-- Model of `QAHandler._validate_inputs` (lines 159–173): the question must
strip to at least 3 characters and the context to at least 10 (the two
emptiness checks are subsumed by the length checks). -/
def validInputs (question context : String) : Bool :=
  3 ≤ (stripWs question.data).length ∧ 10 ≤ (stripWs context.data).length

/-- Model of `QAHandler.extract_answer` (lines 175–241). The QA pipeline is
an oracle: `none` models a raised exception inside the `try` block,
`some (answer, score)` its answer and score (span offsets are dropped).
Returns the result of the call together with the cache state it leaves
behind. -/
def extractAnswerStep (s : QACacheState) (question context : String)
    (cacheEnabled : Bool) (cThreshold : ℚ) (modelOut : Option (String × ℚ))
    (now : Int) : Option QAResultM × QACacheState :=
  if ¬ validInputs question context then (none, s)
  else
    let gotten := if cacheEnabled then qaGet s question context now else (none, s)
    match gotten.1 with
    | some r => (some r, gotten.2)
    | none =>
      let s1 := gotten.2
      match modelOut with
      | none => (none, s1)
      | some (rawAns, score) =>
        if score < cThreshold then (none, s1)
        else
          let r : QAResultM := ⟨String.mk (stripWs rawAns.data), min score 1, score⟩
          if cacheEnabled ∧ score > 3/10 then (some r, qaSet s1 question context r none now)
          else (some r, s1)

/-- Operations the repository performs on the module-level `QACache`
instance: `extract_answer` calls (also issued per context by
`extract_from_multiple`) and `clear_cache`. -/
inductive QAOp where
  | extract (question context : String) (cacheEnabled : Bool) (cThreshold : ℚ)
            (modelOut : Option (String × ℚ)) (now : Int)
  | clear

/-- Run a sequence of operations against a `QACache`. -/
def runQAOps (s : QACacheState) : List QAOp → QACacheState
  | [] => s
  | QAOp.extract q c en th mo now :: ops =>
      runQAOps (extractAnswerStep s q c en th mo now).2 ops
  | QAOp.clear :: ops => runQAOps (qaClear s) ops

/-! ## Classification endpoint cache interaction (`main.py` lines 284–305) -/

/-- Model of the cache interaction of the `/classify` endpoint: on a cache
hit the cached result is returned unchanged; on a miss the handler result
(an oracle parameter) is returned, and written to the cache only when
caching is enabled and its confidence exceeds 0.5. -/
def classifyEndpointStep (s : SimpleCacheState) (text : String)
    (handlerResult : ClassResultM) (enableCaching : Bool) (now : Int) :
    ClassResultM × SimpleCacheState :=
  if enableCaching then
    match scGet s text now with
    | some cached => (cached, s)
    | none =>
      if handlerResult.confidence > 1/2 then (handlerResult, scSet s text handlerResult now)
      else (handlerResult, s)
  else (handlerResult, s)

/-- Operations the repository performs on the module-level
`classification_cache` instance: the `/classify` endpoint step and the two
`clear()` call sites. -/
inductive SCOp where
  | classify (text : String) (handlerResult : ClassResultM)
             (enableCaching : Bool) (now : Int)
  | clear

/-- Run a sequence of operations against the classification cache. -/
def runSCOps (s : SimpleCacheState) : List SCOp → SimpleCacheState
  | [] => s
  | SCOp.classify t r en now :: ops => runSCOps (classifyEndpointStep s t r en now).2 ops
  | SCOp.clear :: ops => runSCOps (scClear s) ops

/-! ## Knowledge response generation (`response_generator.py` lines 16–25, 171–234) -/

/-- Modelled fields of a `HybridResponse` (response_generator.py
lines 16–25); metadata and timing are not modelled. -/
structure HybridResponseM where
  message : String
  intent : String
  confidence : ℚ
  mode : String
  source : String
deriving DecidableEq

/-- The stable descending-by-confidence sort performed at the end of
`QAHandler.extract_from_multiple` (qa_handler.py line 267). -/
def sortByConfDesc (rs : List QAResultM) : List QAResultM :=
  rs.mergeSort (fun a b => decide (b.confidence ≤ a.confidence))

/-- Model of `QAHandler.extract_from_multiple` (qa_handler.py
lines 243–270) given the per-context outcomes of `extract_answer`
(`none` for a context that produced no result): keep the successful
results in context order and sort them by descending confidence. -/
def extractFromMultipleModel (outcomes : List (Option QAResultM)) : List QAResultM :=
  sortByConfDesc (outcomes.filterMap id)

/-- Model of `HybridResponseGenerator._generate_knowledge_response`
(lines 171–234). External lookups and extractions are oracle parameters:
`primaryContext` is `knowledge_base.get_context(intent)`, `primaryResult`
the extraction outcome on the primary context, `relatedContexts` the
`search_related_contexts` result and `relatedOutcomes` the per-context
extraction outcomes used by `extract_from_multiple`. -/
def generateKnowledgeResponse (intent : String) (classConf : ℚ)
    (primaryContext : Option String) (primaryResult : Option QAResultM)
    (relatedContexts : List (String × String))
    (relatedOutcomes : List (Option QAResultM)) : Option HybridResponseM :=
  match primaryContext with
  | none => none
  | some _ =>
    match primaryResult with
    | some r =>
      if r.confidence > qaConfidenceThreshold then
        some ⟨r.answer, intent, min classConf r.confidence, "knowledge", "qa_extraction"⟩
      else tryRelated intent classConf relatedContexts relatedOutcomes
    | none => tryRelated intent classConf relatedContexts relatedOutcomes
where
  /-- The related-contexts branch (lines 205–233). -/
  tryRelated (intent : String) (classConf : ℚ)
      (relatedContexts : List (String × String))
      (relatedOutcomes : List (Option QAResultM)) : Option HybridResponseM :=
    if relatedContexts.isEmpty then none
    else
      match extractFromMultipleModel relatedOutcomes with
      | [] => none
      | best :: _ =>
        if best.confidence > qaConfidenceThreshold then
          some ⟨best.answer, intent, min classConf best.confidence, "knowledge", "qa_extraction"⟩
        else none

/-! ## Batch classification (`distilbert_handler.py` lines 122–146) -/

/-- Model of `asyncio.gather(*tasks, return_exceptions=True)`: each task
`i` deposits its outcome into slot `i` when it completes; `order` is the
completion order of the tasks. The returned list reads the slots in task
order. -/
def gatherResults (outcomes : List α) (order : List Nat) (dflt : α) : List α :=
  order.foldl (fun slots i => slots.set i (outcomes.getD i dflt))
    (List.replicate outcomes.length dflt)

/-- Model of `batch_classify` (lines 122–146): run `classify_intent` per
text (the oracle maps a text to its result, or to the message of the
exception it raised — `classify_intent` itself catches its internal
errors, but `gather` still converts anything escaping into its slot),
collect in input order, and replace exceptional slots by
`_fallback_classification(texts[i], str(result))`. -/
def batchClassify (oracle : String → Except String ClassResultM)
    (texts : List String) (order : List Nat) : List ClassResultM :=
  let results := gatherResults (texts.map oracle) order (Except.error "")
  (texts.zip results).map (fun p =>
    match p.2 with
    | Except.ok r => r
    | Except.error e => fallbackClassification p.1 e)

/-! ## Write sequences (for the capacity and gating claims) -/

/-- One `QACache.set` call with the default ttl. -/
structure QAWrite where
  question : String
  context : String
  value : QAResultM
  now : Int

/-- The entry such a write creates. -/
def mkQAEntry (dttl : Int) (w : QAWrite) : QAEntry :=
  ⟨qaGenKey w.question w.context, w.now, dttl, w.value⟩

/-- Run a sequence of `QACache.set` calls. -/
def qaRunSets : QACacheState → List QAWrite → QACacheState
  | s, [] => s
  | s, w :: ws => qaRunSets (qaSet s w.question w.context w.value none w.now) ws

/-- One `SimpleCache.set` call. -/
structure SCWrite where
  text : String
  value : ClassResultM
  now : Int

/-- The entry such a write creates. -/
def mkSCEntry (w : SCWrite) : SCEntry := ⟨scGenKey w.text, w.now, w.value⟩

/-- Run a sequence of `SimpleCache.set` calls. -/
def scRunSets : SimpleCacheState → List SCWrite → SimpleCacheState
  | s, [] => s
  | s, w :: ws => scRunSets (scSet s w.text w.value w.now) ws

/-! ## Spec-side reading of the keyword score

The claim describes the whole-word bonus as granted to keywords "matched as
a whole word (bounded by word boundaries or string start/end)"; the
definitions below follow those words so they can be compared with the
code's test. -/

/-- Occurrence at `i` whose two ends each sit at a word boundary (a space)
or at the string start/end — a whole word as the claim words it. -/
def isWholeWordAt (kw tl : List Char) (i : Nat) : Bool :=
  subAt kw tl i &&
  (decide (i = 0) || decide (tl.getD (i - 1) 'x' = ' ')) &&
  (decide (i + kw.length = tl.length) || decide (tl.getD (i + kw.length) 'x' = ' '))

/-- The keyword occurs somewhere in the text as a whole word. -/
def isWholeWord (kw tl : List Char) : Bool :=
  (List.range (tl.length + 1)).any (fun i => isWholeWordAt kw tl i)

/-- The per-intent keyword score exactly as the claim words it:
substring-match count over total keywords, plus 0.15 per whole-word match,
capped at 1, and 0 for an intent with no substring match. -/
def intentScoreClaim (text : String) (kws : List String) : ℚ :=
  let tl := lowerStr text
  let n := kws.countP (fun kw => occursIn kw.data tl)
  if n = 0 then 0
  else min ((n : ℚ) / (kws.length : ℚ) +
    (kws.countP (fun kw => isWholeWord kw.data tl) : ℚ) * (3/20)) 1

/-- The claim formula with the code's actual bonus test substituted for the
whole-word wording: 0.15 per keyword that is a substring and passes
`isExactWord` (space-delimited in the space-padded text, or a prefix or a
suffix of the whole lower-cased text). -/
def intentScoreSpec (text : String) (kws : List String) : ℚ :=
  let tl := lowerStr text
  let n := kws.countP (fun kw => occursIn kw.data tl)
  if n = 0 then 0
  else min ((n : ℚ) / (kws.length : ℚ) +
    (kws.countP (fun kw => occursIn kw.data tl && isExactWord kw.data tl) : ℚ) * (3/20)) 1

/-- Invariant of the Answer Cache claimed by the write gate: every stored
extraction result has model confidence strictly above 0.3. -/
def qaCacheInv (s : QACacheState) : Prop :=
  ∀ e ∈ s.entries, 3/10 < e.value.modelConfidence

/-- Invariant of the Classification Cache claimed by the write gate: every
stored result has confidence strictly above 0.5. -/
def scCacheInv (s : SimpleCacheState) : Prop :=
  ∀ e ∈ s.entries, 1/2 < e.value.confidence

/-! ## Theorems -/

/-- The configured knowledge and conversational intent sets are disjoint. -/
lemma knowledge_not_conversational :
    ∀ i ∈ KNOWLEDGE_INTENTS, i ∉ CONVERSATIONAL_INTENTS := by decide

/-- C3: for every (intent, confidence) pair, an intent in the conversational
set routes to mode `conversational` regardless of confidence (including 0);
an intent in the knowledge set with confidence above the
`qa_confidence_threshold` (0.3) routes to `knowledge`; every other case
routes to `fallback`. -/
theorem spec_C3 (intent : String) (confidence : ℚ) :
    (intent ∈ CONVERSATIONAL_INTENTS → determineMode intent confidence = "conversational") ∧
    (intent ∈ KNOWLEDGE_INTENTS → confidence > qaConfidenceThreshold →
      determineMode intent confidence = "knowledge") ∧
    (intent ∉ CONVERSATIONAL_INTENTS →
      ¬ (intent ∈ KNOWLEDGE_INTENTS ∧ confidence > qaConfidenceThreshold) →
      determineMode intent confidence = "fallback") := by
  refine ⟨?_, ?_, ?_⟩
  · intro h
    simp [determineMode, h]
  · intro hk hc
    have hnc : intent ∉ CONVERSATIONAL_INTENTS := knowledge_not_conversational intent hk
    simp [determineMode, hnc, hk, hc]
  · intro hnc hno
    simp [determineMode, hnc, hno]

/-- Witness for C3: one concrete instance per branch, including the
conversational case at confidence 0. -/
theorem spec_C3_witness :
    determineMode "conversational_greeting" 0 = "conversational" ∧
    determineMode "pricing_basic" (2/5) = "knowledge" ∧
    determineMode "unknown" 1 = "fallback" := by
  refine ⟨(spec_C3 _ _).1 (by decide),
          (spec_C3 _ _).2.1 (by decide) ?_,
          (spec_C3 _ _).2.2 (by decide) ?_⟩
  · norm_num [qaConfidenceThreshold]
  · intro h
    exact absurd h.1 (by decide)

/-- C7 (amended): the per-intent keyword score equals the claim's formula
with the bonus granted per keyword that occurs as a substring and passes
the code's word test (space-delimited occurrence in the space-padded text,
or prefix or suffix of the whole lower-cased text). -/
theorem spec_C7 (text : String) (kws : List String) :
    intentScore text kws = intentScoreSpec text kws := by
  have hlen : (kws.filter (fun kw => occursIn kw.data (lowerStr text))).length
      = kws.countP (fun kw => occursIn kw.data (lowerStr text)) :=
    (List.countP_eq_length_filter _ _).symm
  have hcnt : (kws.filter (fun kw => occursIn kw.data (lowerStr text))).countP
        (fun kw => isExactWord kw.data (lowerStr text))
      = kws.countP
          (fun kw => occursIn kw.data (lowerStr text) && isExactWord kw.data (lowerStr text)) := by
    rw [List.countP_filter]
    exact List.countP_congr (fun a _ => by simp [Bool.and_comm])
  by_cases h : kws.countP (fun kw => occursIn kw.data (lowerStr text)) = 0
  · have hfil : (kws.filter (fun kw => occursIn kw.data (lowerStr text))) = [] := by
      rw [← List.length_eq_zero, hlen]
      exact h
    simp [intentScore, intentScoreSpec, hfil, h]
  · have hfil : ¬ (kws.filter (fun kw => occursIn kw.data (lowerStr text))).isEmpty := by
      rw [List.isEmpty_iff, ← List.length_eq_zero, hlen]
      exact h
    simp only [intentScore, intentScoreSpec, hfil, h, if_neg, Bool.false_eq_true,
      if_false, hlen, hcnt]

set_option maxRecDepth 10000 in
/-- Witness for C7: the amended formula evaluated at a concrete text and
keyword list. -/
theorem spec_C7_witness :
    intentScore "hello there"
        ["halo", "hai", "hello", "hi", "selamat pagi", "selamat siang",
         "good morning", "good afternoon", "hey", "morning"]
      = intentScoreSpec "hello there"
        ["halo", "hai", "hello", "hi", "selamat pagi", "selamat siang",
         "good morning", "good afternoon", "hey", "morning"] :=
  spec_C7 "hello there" _

set_option maxRecDepth 10000 in
/-- C7 counterexample: for the text `apiculture` and the
`product_integration` keyword list of the configured table, the code scores
1/7 + 0.15 (the keyword `api` is merely a prefix of the longer word
`apiculture`, yet `startswith` grants it the whole-word bonus), while the
claim's whole-word reading scores exactly 1/7. -/
theorem spec_C7_cex :
    ("product_integration",
      ["integration", "api", "connect", "crm", "platforms", "third party", "webhook"])
        ∈ INTENT_KEYWORDS ∧
    intentScore "apiculture"
      ["integration", "api", "connect", "crm", "platforms", "third party", "webhook"] = 41/140 ∧
    intentScoreClaim "apiculture"
      ["integration", "api", "connect", "crm", "platforms", "third party", "webhook"] = 1/7 ∧
    (41/140 : ℚ) ≠ 1/7 := by
  refine ⟨by decide, ?_, ?_, by norm_num⟩
  · norm_num +decide [intentScore, isExactWord, min_def]
  · norm_num +decide [intentScoreClaim, isWholeWord, isWholeWordAt, min_def]

set_option maxRecDepth 10000 in
set_option maxHeartbeats 1000000 in
/-- The keyword classifier on the empty text: every intent scores 0, so the
result is `unknown` with confidence exactly 0. -/
lemma kw_empty : keywordClassification "" = ⟨"unknown", 0, "keyword_matching"⟩ := by
  norm_num +decide [keywordClassification, intentScore, argmaxFirst, INTENT_KEYWORDS, min_def]

/-- C8 (amended): on the empty text, the core classification (keyword path,
classifier unavailable) yields intent `unknown` with confidence exactly 0
and source `keyword_matching`; the routed mode is `fallback`; confidence
0.1 with source `fallback_error` is produced only by the error-path
`_fallback_classification`. -/
theorem spec_C8 :
    hybridIntentClassification "" none = ⟨"unknown", 0, "keyword_matching"⟩ ∧
    determineMode "unknown" 0 = "fallback" ∧
    ∀ text err, fallbackClassification text err = ⟨"unknown", 1/10, "fallback_error"⟩ := by
  refine ⟨?_, ?_, fun _ _ => rfl⟩
  · rw [show hybridIntentClassification "" none = keywordClassification "" from rfl, kw_empty]
  · have h1 : "unknown" ∉ CONVERSATIONAL_INTENTS := by decide
    have h2 : ¬ ((0 : ℚ) > qaConfidenceThreshold) := by norm_num [qaConfidenceThreshold]
    simp [determineMode, h1, h2]

/-- C8 counterexample: the empty text's core classification carries
confidence 0, not the claimed 0.1. -/
theorem spec_C8_cex :
    (hybridIntentClassification "" none).confidence = 0 ∧ ((0 : ℚ) ≠ 1/10) := by
  constructor
  · rw [show hybridIntentClassification "" none = keywordClassification "" from rfl, kw_empty]
  · norm_num

/-- C2: for a text on which the external classifier succeeds (top label
mapping to intent `nIntent` with score `nconf`): if that intent equals the
keyword top intent, `nconf > 0.4` and the keyword confidence `> 0.3`, the
fusion returns it with confidence `min(nconf * 1.1, 0.85)` and the fused
source; otherwise the keyword result (with its own confidence and source)
when its confidence is strictly higher, else the neural result. -/
theorem spec_C2 (text label : String) (nconf : ℚ) (nIntent : String)
    (hmap : mapLabelToIntent label = some nIntent) :
    ((nIntent = (keywordClassification text).intent ∧ nconf > 2/5 ∧
        (keywordClassification text).confidence > 3/10) →
      hybridIntentClassification text (some (label, nconf))
        = ⟨nIntent, min (nconf * (11/10)) (17/20), "hybrid_classification"⟩) ∧
    (¬ (nIntent = (keywordClassification text).intent ∧ nconf > 2/5 ∧
        (keywordClassification text).confidence > 3/10) →
      (keywordClassification text).confidence > nconf →
      hybridIntentClassification text (some (label, nconf))
        = ⟨(keywordClassification text).intent, (keywordClassification text).confidence,
           "keyword_classification"⟩) ∧
    (¬ (nIntent = (keywordClassification text).intent ∧ nconf > 2/5 ∧
        (keywordClassification text).confidence > 3/10) →
      ¬ ((keywordClassification text).confidence > nconf) →
      hybridIntentClassification text (some (label, nconf))
        = ⟨nIntent, nconf, "neural_classification"⟩) := by
  have hred : hybridIntentClassification text (some (label, nconf))
      = (if nIntent = (keywordClassification text).intent ∧ nconf > 2/5 ∧
            (keywordClassification text).confidence > 3/10 then
           ⟨nIntent, min (nconf * (11/10)) (17/20), "hybrid_classification"⟩
         else if (keywordClassification text).confidence > nconf then
           ⟨(keywordClassification text).intent, (keywordClassification text).confidence,
            "keyword_classification"⟩
         else ⟨nIntent, nconf, "neural_classification"⟩) := by
    simp [hybridIntentClassification, hmap]
  refine ⟨fun h => by rw [hred, if_pos h],
          fun h1 h2 => by rw [hred, if_neg h1, if_pos h2],
          fun h1 h2 => by rw [hred, if_neg h1, if_neg h2]⟩

set_option maxRecDepth 10000 in
set_option maxHeartbeats 1000000 in
/-- The keyword classifier on `hello`: only the greeting keyword list
matches (score 1/10 + 0.15), so the confidence is `min(1/4 * 1.1, 0.9)`. -/
lemma kw_hello :
    keywordClassification "hello" = ⟨"conversational_greeting", 11/40, "keyword_matching"⟩ := by
  norm_num +decide [keywordClassification, intentScore, argmaxFirst, INTENT_KEYWORDS,
    isExactWord, min_def]

/-- Witness for C2: classifier label `LABEL_0` (intent `product_features`)
with score 1/2 disagrees with the keyword top intent on `hello`, and the
keyword confidence 11/40 does not beat 1/2, so the neural result wins. -/
theorem spec_C2_witness :
    hybridIntentClassification "hello" (some ("LABEL_0", 1/2))
      = ⟨"product_features", 1/2, "neural_classification"⟩ := by
  have h := (spec_C2 "hello" "LABEL_0" (1/2) "product_features" (by decide)).2.2
  rw [kw_hello] at h
  refine h ?_ ?_
  · intro hc
    exact absurd hc.1 (by decide)
  · norm_num

/-- A fold that at each step keeps either the accumulator or the list
element lands on the seed or on a list element. -/
lemma foldl_choice_mem {γ : Type} (f : γ → γ → γ) (hf : ∀ b y, f b y = b ∨ f b y = y) :
    ∀ (xs : List γ) (b : γ), xs.foldl f b = b ∨ xs.foldl f b ∈ xs := by
  intro xs
  induction xs with
  | nil => intro b; exact Or.inl rfl
  | cons y ys ih =>
    intro b
    rcases ih (f b y) with h | h
    · rcases hf b y with h2 | h2
      · rw [List.foldl_cons, h, h2]
        exact Or.inl rfl
      · rw [List.foldl_cons, h, h2]
        exact Or.inr (List.mem_cons_self _ _)
    · exact Or.inr (List.mem_cons_of_mem _ h)

/-- Every per-intent keyword score is nonnegative. -/
lemma intentScore_nonneg (text : String) (kws : List String) : 0 ≤ intentScore text kws := by
  by_cases h : (kws.filter (fun kw => occursIn kw.data (lowerStr text))).isEmpty
  · simp [intentScore, h]
  · simp only [intentScore, h, Bool.false_eq_true, if_false]
    exact le_min (by positivity) (by norm_num)

/-- Every per-intent keyword score is at most 1. -/
lemma intentScore_le_one (text : String) (kws : List String) : intentScore text kws ≤ 1 := by
  by_cases h : (kws.filter (fun kw => occursIn kw.data (lowerStr text))).isEmpty
  · simp [intentScore, h]
  · simp only [intentScore, h, Bool.false_eq_true, if_false]
    exact min_le_right _ _

/-- Python's first-maximum always picks an element of a nonempty list. -/
lemma argmaxFirst_mem (x : String × ℚ) (xs : List (String × ℚ)) :
    argmaxFirst (x :: xs) ∈ x :: xs := by
  have hf : ∀ b y : String × ℚ,
      (if y.2 > b.2 then y else b) = b ∨ (if y.2 > b.2 then y else b) = y := by
    intro b y
    by_cases h : y.2 > b.2
    · rw [if_pos h]
      exact Or.inr rfl
    · rw [if_neg h]
      exact Or.inl rfl
  show (xs.foldl (fun b y => if y.2 > b.2 then y else b) x) ∈ x :: xs
  have hc := foldl_choice_mem (fun b y : String × ℚ => if y.2 > b.2 then y else b) hf xs x
  rcases hc with h | h
  · rw [h]
    exact List.mem_cons_self _ _
  · exact List.mem_cons_of_mem _ h

/-- Every key of the keyword table is a configured intent label. -/
lemma intentKeywords_fst_mem : ∀ p ∈ INTENT_KEYWORDS, p.1 ∈ intentLabels := by decide

/-- The reserved `unknown` intent is a configured label. -/
lemma unknown_mem_intentLabels : "unknown" ∈ intentLabels := by decide

/-- The keyword classifier always returns a confidence in `[0, 1]` and an
intent drawn from the configured labels. -/
lemma keywordClassification_bounds (text : String) :
    0 ≤ (keywordClassification text).confidence ∧
    (keywordClassification text).confidence ≤ 1 ∧
    (keywordClassification text).intent ∈ intentLabels := by
  obtain ⟨p0, rest, hpr⟩ : ∃ p0 rest, INTENT_KEYWORDS = p0 :: rest := ⟨_, _, rfl⟩
  have hmem : argmaxFirst (INTENT_KEYWORDS.map (fun p => (p.1, intentScore text p.2)))
      ∈ INTENT_KEYWORDS.map (fun p => (p.1, intentScore text p.2)) := by
    rw [hpr, List.map_cons]
    exact argmaxFirst_mem _ _
  have hval : 0 ≤ (argmaxFirst (INTENT_KEYWORDS.map (fun p => (p.1, intentScore text p.2)))).2 := by
    rcases List.mem_map.mp hmem with ⟨p, _, hp⟩
    rw [← hp]
    exact intentScore_nonneg text p.2
  refine ⟨?_, ?_, ?_⟩
  · simp only [keywordClassification]
    exact le_min (mul_nonneg hval (by norm_num)) (by norm_num)
  · simp only [keywordClassification]
    exact le_trans (min_le_right _ _) (by norm_num)
  · simp only [keywordClassification]
    split
    · rcases List.mem_map.mp hmem with ⟨p, hpmem, hp⟩
      have h1 : (argmaxFirst (INTENT_KEYWORDS.map (fun p => (p.1, intentScore text p.2)))).1
          = p.1 := by
        rw [← hp]
      rw [h1]
      exact intentKeywords_fst_mem p hpmem
    · exact unknown_mem_intentLabels

/-- A successfully mapped label is a configured intent label. -/
lemma mapLabelToIntent_mem {label n : String} (h : mapLabelToIntent label = some n) :
    n ∈ intentLabels := by
  unfold mapLabelToIntent at h
  split at h
  · split at h
    · split at h
      · exact List.get?_mem h
      · cases h
    · cases h
  · cases h

/-- When at least one configured keyword occurs in the text, the context
selection picks a key of the keyword table, hence a configured label. -/
lemma selectBestContextIntent_mem (text : String)
    (h : ∃ p ∈ INTENT_KEYWORDS, ∃ kw ∈ p.2, occursIn kw.data (lowerStr text)) :
    selectBestContextIntent text ∈ intentLabels := by
  obtain ⟨p, hp, kw, hkw, hocc⟩ := h
  have hcount : 0 < p.2.countP (fun kw => occursIn kw.data (lowerStr text)) :=
    List.countP_pos_iff.mpr ⟨kw, hkw, hocc⟩
  have hmem : (p.1, ((p.2.countP (fun kw => occursIn kw.data (lowerStr text))) : Int))
      ∈ INTENT_KEYWORDS.filterMap (fun p =>
          if 0 < p.2.countP (fun kw => occursIn kw.data (lowerStr text)) then
            some (p.1, ((p.2.countP (fun kw => occursIn kw.data (lowerStr text))) : Int))
          else none) :=
    List.mem_filterMap.mpr ⟨p, hp, by rw [if_pos hcount]⟩
  have hne := List.ne_nil_of_mem hmem
  unfold selectBestContextIntent
  cases hs : INTENT_KEYWORDS.filterMap (fun p =>
      if 0 < p.2.countP (fun kw => occursIn kw.data (lowerStr text)) then
        some (p.1, ((p.2.countP (fun kw => occursIn kw.data (lowerStr text))) : Int))
      else none) with
  | nil => exact absurd hs hne
  | cons x xs =>
    simp only [hs]
    have hf : ∀ b y : String × Int,
        (if y.2 > b.2 then y else b) = b ∨ (if y.2 > b.2 then y else b) = y := by
      intro b y
      by_cases hby : y.2 > b.2
      · rw [if_pos hby]
        exact Or.inr rfl
      · rw [if_neg hby]
        exact Or.inl rfl
    have hc := foldl_choice_mem (fun b y : String × Int => if y.2 > b.2 then y else b) hf xs x
    have hin : (xs.foldl (fun b y : String × Int => if y.2 > b.2 then y else b) x)
        ∈ x :: xs := by
      rcases hc with h1 | h1
      · rw [h1]
        exact List.mem_cons_self _ _
      · exact List.mem_cons_of_mem _ h1
    rw [← hs] at hin
    rcases List.mem_filterMap.mp hin with ⟨q, hq, hqe⟩
    by_cases hqc : 0 < q.2.countP (fun kw => occursIn kw.data (lowerStr text))
    · rw [if_pos hqc] at hqe
      have : (xs.foldl (fun b y : String × Int => if y.2 > b.2 then y else b) x).1 = q.1 := by
        rw [← Option.some_inj.mp hqe]
      rw [this]
      exact intentKeywords_fst_mem q hq
    · rw [if_neg hqc] at hqe
      cases hqe

set_option maxRecDepth 10000 in
/-- C1 (amended): the fused classification result always has a confidence
in `[0, 1]` (given the external classifier's score is in `[0, 1]`, its
documented contract) and an intent drawn from the configured labels (which
contain `unknown`); the intent attached to the question-answering path's
context selection is drawn from the configured labels whenever at least one
configured keyword occurs in the text, but is the out-of-set constant
`faq_informasi` when none does. -/
theorem spec_C1 (text : String) (neural : Option (String × ℚ))
    (hneural : ∀ p, neural = some p → 0 ≤ p.2 ∧ p.2 ≤ 1) :
    (0 ≤ (hybridIntentClassification text neural).confidence ∧
     (hybridIntentClassification text neural).confidence ≤ 1 ∧
     (hybridIntentClassification text neural).intent ∈ intentLabels) ∧
    ((∃ p ∈ INTENT_KEYWORDS, ∃ kw ∈ p.2, occursIn kw.data (lowerStr text)) →
      selectBestContextIntent text ∈ intentLabels) := by
  refine ⟨?_, selectBestContextIntent_mem text⟩
  match neural with
  | none => exact keywordClassification_bounds text
  | some (label, nconf) =>
    obtain ⟨h0, h1⟩ := hneural (label, nconf) rfl
    cases hmap : mapLabelToIntent label with
    | none =>
      have hred : hybridIntentClassification text (some (label, nconf))
          = keywordClassification text := by
        simp [hybridIntentClassification, hmap]
      rw [hred]
      exact keywordClassification_bounds text
    | some nIntent =>
      have hred : hybridIntentClassification text (some (label, nconf))
          = (if nIntent = (keywordClassification text).intent ∧ nconf > 2/5 ∧
                (keywordClassification text).confidence > 3/10 then
               ⟨nIntent, min (nconf * (11/10)) (17/20), "hybrid_classification"⟩
             else if (keywordClassification text).confidence > nconf then
               ⟨(keywordClassification text).intent, (keywordClassification text).confidence,
                "keyword_classification"⟩
             else ⟨nIntent, nconf, "neural_classification"⟩) := by
        simp [hybridIntentClassification, hmap]
      rw [hred]
      split_ifs with hA hB
      · exact ⟨le_min (mul_nonneg h0 (by norm_num)) (by norm_num),
               le_trans (min_le_right _ _) (by norm_num),
               mapLabelToIntent_mem hmap⟩
      · exact ⟨(keywordClassification_bounds text).1,
               (keywordClassification_bounds text).2.1,
               (keywordClassification_bounds text).2.2⟩
      · exact ⟨h0, h1, mapLabelToIntent_mem hmap⟩

/-- C1 counterexample: on a text with no keyword occurrence (the empty
text), the context selection returns `faq_informasi`, which is not a
configured intent label (nor `unknown`). -/
theorem spec_C1_cex :
    selectBestContextIntent "" = "faq_informasi" ∧ "faq_informasi" ∉ intentLabels := by
  exact ⟨by decide, by decide⟩

/-- Witness for C1: the fused result on `hello` with an unavailable
classifier is well-bounded and well-labelled, and `hello` has a keyword
occurrence so the context selection stays in the label set. -/
theorem spec_C1_witness :
    (0 ≤ (hybridIntentClassification "hello" none).confidence ∧
     (hybridIntentClassification "hello" none).confidence ≤ 1 ∧
     (hybridIntentClassification "hello" none).intent ∈ intentLabels) ∧
    selectBestContextIntent "hello" ∈ intentLabels := by
  have h := spec_C1 "hello" none (fun p hp => by cases hp)
  refine ⟨h.1, h.2 ?_⟩
  exact ⟨("conversational_greeting",
          ["halo", "hai", "hello", "hi", "selamat pagi", "selamat siang",
           "good morning", "good afternoon", "hey", "morning"]),
         by decide, "hello", by decide, by decide⟩

/-- C5 (amended): for the QA answer cache, a get at elapsed time strictly
below the entry's ttl is a hit returning the stored value, and a get at
elapsed time ≥ ttl is a miss that removes the entry. For the classification
cache, a get at elapsed time ≤ ttl is a hit and a get at elapsed time > ttl
is a miss, but the expired entry stays in the store (the source's `get`
never mutates; removal happens only through `set`'s cleanup). -/
theorem spec_C5 :
    (∀ (cap : Nat) (dttl : Int) (q c : String) (v : QAResultM) (t tw tr : Int), 0 < t →
      ((tr - tw < t →
         (qaGet (qaSet (qaEmpty cap dttl) q c v (some t) tw) q c tr).1 = some v) ∧
       (t ≤ tr - tw →
         (qaGet (qaSet (qaEmpty cap dttl) q c v (some t) tw) q c tr).1 = none ∧
         (qaGet (qaSet (qaEmpty cap dttl) q c v (some t) tw) q c tr).2.entries = []))) ∧
    (∀ (cap : Nat) (ttl : Int) (text : String) (v : ClassResultM) (tw tr : Int),
      ((tr - tw ≤ ttl → scGet (scSet (scEmpty cap ttl) text v tw) text tr = some v) ∧
       (ttl < tr - tw → scGet (scSet (scEmpty cap ttl) text v tw) text tr = none ∧
         (scSet (scEmpty cap ttl) text v tw).entries = [⟨scGenKey text, tw, v⟩]))) := by
  constructor
  · intro cap dttl q c v t tw tr ht
    have hres : resolveTtl (some t) dttl = t := by
      rw [show resolveTtl (some t) dttl = if t = 0 then dttl else t from rfl,
        if_neg (by omega)]
    have hentries : (qaSet (qaEmpty cap dttl) q c v (some t) tw).entries
        = [⟨qaGenKey q c, tw, t, v⟩] := by
      simp [qaSet, qaEmpty, slideInsertBy, setKeyBy, removeOldestBy, hres]
    refine ⟨fun hlt => ?_, fun hge => ?_⟩
    · simp [qaGet, hentries, hlt]
    · have hnlt : ¬ (tr - tw < t) := by omega
      constructor
      · simp [qaGet, hentries, hnlt]
      · simp [qaGet, hentries, hnlt]
  · intro cap ttl text v tw tr
    have hentries : (scSet (scEmpty cap ttl) text v tw).entries = [⟨scGenKey text, tw, v⟩] := by
      simp [scSet, scEmpty, scCleanup, slideInsertBy, setKeyBy, removeOldestBy]
    have httl : (scSet (scEmpty cap ttl) text v tw).ttlSeconds = ttl := by
      simp [scSet, scEmpty, scCleanup]
    refine ⟨fun hle => ?_, fun hgt => ?_⟩
    · have hng : ¬ (tr - tw > ttl) := by omega
      simp [scGet, hentries, httl, hng]
    · refine ⟨?_, hentries⟩
      simp [scGet, hentries, httl, hgt]

/-- Witness for C5: a concrete hit just inside the ttl on the QA cache and
a concrete expired miss on the classification cache. -/
theorem spec_C5_witness :
    (qaGet (qaSet (qaEmpty 1000 300) "q1" "ctx one" ⟨"a", 1, 1⟩ (some 5) 0) "q1" "ctx one" 4).1
      = some ⟨"a", 1, 1⟩ ∧
    scGet (scSet (scEmpty 1000 300) "text one" ⟨"unknown", 1, "s"⟩ 0) "text one" 301 = none := by
  constructor
  · exact ((spec_C5.1 1000 300 "q1" "ctx one" ⟨"a", 1, 1⟩ 5 0 4 (by norm_num)).1 (by norm_num))
  · exact ((spec_C5.2 1000 300 "text one" ⟨"unknown", 1, "s"⟩ 0 301).2 (by norm_num)).1

/-- C5 counterexample: an entry written to the QA answer cache with ttl 5
at time 0 and read back at elapsed time exactly 5 (≤ ttl) is a miss — the
code's hit condition is strict —, where the claim requires a hit. -/
theorem spec_C5_cex :
    ((5 : Int) - 0 ≤ 5) ∧
    (qaGet (qaSet (qaEmpty 1000 300) "question" "some context" ⟨"ans", 1, 1⟩ (some 5) 0)
        "question" "some context" 5).1 = none := by
  constructor
  · decide
  · decide

/-- Elements surviving `removeOldestBy` come from the original list. -/
lemma mem_removeOldestBy {α : Type} (ts : α → Int) :
    ∀ (l : List α) (x : α), x ∈ removeOldestBy ts l → x ∈ l := by
  intro l
  induction l with
  | nil => intro x hx; cases hx
  | cons e es ih =>
    intro x hx
    unfold removeOldestBy at hx
    split at hx
    · exact List.mem_cons_of_mem _ hx
    · rcases List.mem_cons.mp hx with h | h
      · exact h ▸ List.mem_cons_self _ _
      · exact List.mem_cons_of_mem _ (ih x h)

/-- Elements of `setKeyBy` are the inserted entry or original entries. -/
lemma mem_setKeyBy {α : Type} (keyOf : α → String) (k : String) (e : α) :
    ∀ (l : List α) (x : α), x ∈ setKeyBy keyOf k e l → x = e ∨ x ∈ l := by
  intro l
  induction l with
  | nil =>
    intro x hx
    rcases List.mem_singleton.mp hx with h
    exact Or.inl h
  | cons y ys ih =>
    intro x hx
    unfold setKeyBy at hx
    split at hx
    · rcases List.mem_cons.mp hx with h | h
      · exact Or.inl h
      · exact Or.inr (List.mem_cons_of_mem _ h)
    · rcases List.mem_cons.mp hx with h | h
      · exact Or.inr (h ▸ List.mem_cons_self _ _)
      · rcases ih x h with h2 | h2
        · exact Or.inl h2
        · exact Or.inr (List.mem_cons_of_mem _ h2)

/-- Elements after a cache write step are the new entry or old entries. -/
lemma mem_slideInsertBy {α : Type} (ts : α → Int) (keyOf : α → String) (cap : Nat)
    (l : List α) (e x : α) (hx : x ∈ slideInsertBy ts keyOf cap l e) : x = e ∨ x ∈ l := by
  unfold slideInsertBy at hx
  rcases mem_setKeyBy keyOf (keyOf e) e _ x hx with h | h
  · exact Or.inl h
  · split at h
    · exact Or.inr (mem_removeOldestBy ts l x h)
    · exact Or.inr h

/-- A `QACache.get` (which at most deletes an expired entry) preserves the
gate invariant. -/
lemma qaGet_inv (s : QACacheState) (q c : String) (now : Int) (hs : qaCacheInv s) :
    qaCacheInv (qaGet s q c now).2 := by
  simp only [qaGet]
  split
  · split
    · exact hs
    · intro e he
      exact hs e (List.mem_of_mem_filter he)
  · exact hs

/-- A `QACache.set` with a gated value preserves the gate invariant. -/
lemma qaSet_inv (s : QACacheState) (q c : String) (v : QAResultM) (ttl : Option Int)
    (now : Int) (hv : 3/10 < v.modelConfidence) (hs : qaCacheInv s) :
    qaCacheInv (qaSet s q c v ttl now) := by
  intro e he
  rcases mem_slideInsertBy _ _ _ _ _ _ he with h | h
  · rw [h]
    exact hv
  · exact hs e h

/-- The full `extract_answer` call preserves the gate invariant: it writes
only when the model confidence exceeds 0.3. -/
lemma extractAnswerStep_inv (s : QACacheState) (q c : String) (en : Bool) (th : ℚ)
    (mo : Option (String × ℚ)) (now : Int) (hs : qaCacheInv s) :
    qaCacheInv (extractAnswerStep s q c en th mo now).2 := by
  have hget : qaCacheInv (if en then qaGet s q c now else (none, s)).2 := by
    split
    · exact qaGet_inv s q c now hs
    · exact hs
  simp only [extractAnswerStep]
  split
  · exact hs
  · split
    · exact hget
    · split
      · exact hget
      · split
        · exact hget
        · split
          · exact qaSet_inv _ _ _ _ _ _ (by
              rename_i hcond
              exact hcond.2) hget
          · exact hget

/-- Any sequence of repository operations on the Answer Cache, started from
an empty cache, keeps the gate invariant. -/
lemma runQAOps_inv (s : QACacheState) (hs : qaCacheInv s) :
    ∀ ops : List QAOp, qaCacheInv (runQAOps s ops) := by
  intro ops
  induction ops generalizing s with
  | nil => exact hs
  | cons op rest ih =>
    cases op with
    | extract q c en th mo now => exact ih _ (extractAnswerStep_inv s q c en th mo now hs)
    | clear => exact ih _ (fun e he => by cases he)

/-- A `SimpleCache.set` with a gated value preserves the gate invariant. -/
lemma scSet_inv (s : SimpleCacheState) (text : String) (v : ClassResultM) (now : Int)
    (hv : 1/2 < v.confidence) (hs : scCacheInv s) :
    scCacheInv (scSet s text v now) := by
  intro e he
  rcases mem_slideInsertBy _ _ _ _ _ _ he with h | h
  · rw [h]
    exact hv
  · exact hs e (List.mem_of_mem_filter h)

/-- The `/classify` endpoint's cache interaction preserves the gate
invariant: it writes only results with confidence above 0.5. -/
lemma classifyEndpointStep_inv (s : SimpleCacheState) (text : String) (r : ClassResultM)
    (en : Bool) (now : Int) (hs : scCacheInv s) :
    scCacheInv (classifyEndpointStep s text r en now).2 := by
  simp only [classifyEndpointStep]
  split
  · split
    · exact hs
    · split
      · rename_i hconf
        exact scSet_inv s text r now hconf hs
      · exact hs
  · exact hs

/-- Any sequence of repository operations on the Classification Cache,
started from an empty cache, keeps the gate invariant. -/
lemma runSCOps_inv (s : SimpleCacheState) (hs : scCacheInv s) :
    ∀ ops : List SCOp, scCacheInv (runSCOps s ops) := by
  intro ops
  induction ops generalizing s with
  | nil => exact hs
  | cons op rest ih =>
    cases op with
    | classify t r en now => exact ih _ (classifyEndpointStep_inv s t r en now hs)
    | clear => exact ih _ (fun e he => by cases he)

/-- C6: starting from empty caches, after any sequence of the repository's
cache operations every entry of the Classification Cache holds a result
with confidence strictly above 0.5 and every entry of the Answer Cache
holds an extraction result with model confidence strictly above 0.3 —
results at or below the gates are never stored. -/
theorem spec_C6 (cap : Nat) (dttl : Int) (qaOps : List QAOp)
    (cap2 : Nat) (ttl : Int) (scOps : List SCOp) :
    qaCacheInv (runQAOps (qaEmpty cap dttl) qaOps) ∧
    scCacheInv (runSCOps (scEmpty cap2 ttl) scOps) :=
  ⟨runQAOps_inv _ (fun e he => by cases he) qaOps,
   runSCOps_inv _ (fun e he => by cases he) scOps⟩

/-- Writing into slots never changes the slot count. -/
lemma foldl_set_length {α : Type} (f : Nat → α) :
    ∀ (order : List Nat) (init : List α),
      (order.foldl (fun slots i => slots.set i (f i)) init).length = init.length := by
  intro order
  induction order with
  | nil => intro init; rfl
  | cons i rest ih =>
    intro init
    rw [List.foldl_cons, ih, List.length_set]

/-- A slot no completing task writes keeps its initial content. -/
lemma foldl_set_get_notmem {α : Type} (f : Nat → α) :
    ∀ (order : List Nat) (init : List α) (j : Nat), j ∉ order →
      (order.foldl (fun slots i => slots.set i (f i)) init)[j]? = init[j]? := by
  intro order
  induction order with
  | nil => intro init j _; rfl
  | cons i rest ih =>
    intro init j hj
    rw [List.foldl_cons, ih _ _ (fun h => hj (List.mem_cons_of_mem _ h)),
      List.getElem?_set_ne (fun h => hj (by rw [← h]; exact List.mem_cons_self _ _))]

/-- A slot whose task completes holds that task's outcome, whatever the
completion order (each task index occurs once). -/
lemma foldl_set_get_mem {α : Type} (f : Nat → α) :
    ∀ (order : List Nat) (init : List α) (j : Nat), order.Nodup → j ∈ order →
      j < init.length →
      (order.foldl (fun slots i => slots.set i (f i)) init)[j]? = some (f j) := by
  intro order
  induction order with
  | nil =>
    intro init j _ hj
    cases hj
  | cons i rest ih =>
    intro init j hnd hj hlt
    rcases List.mem_cons.mp hj with h | h
    · subst h
      have hnotin : j ∉ rest := (List.nodup_cons.mp hnd).1
      rw [List.foldl_cons, foldl_set_get_notmem f rest _ j hnotin,
        List.getElem?_set_eq hlt]
    · rw [List.foldl_cons]
      exact ih _ j (List.nodup_cons.mp hnd).2 h (by rw [List.length_set]; exact hlt)

/-- When the completion order is a permutation of the task indices, the
gathered slots are exactly the per-task outcomes in task order. -/
lemma gatherResults_perm {α : Type} (outcomes : List α) (order : List Nat) (d : α)
    (h : order.Perm (List.range outcomes.length)) :
    gatherResults outcomes order d = outcomes := by
  have hnd : order.Nodup := h.nodup_iff.mpr (List.nodup_range _)
  apply List.ext_getElem?
  intro j
  by_cases hj : j < outcomes.length
  · have hjmem : j ∈ order := h.mem_iff.mpr (List.mem_range.mpr hj)
    unfold gatherResults
    rw [foldl_set_get_mem _ order _ j hnd hjmem (by rw [List.length_replicate]; exact hj)]
    rw [List.getElem?_eq_getElem hj]
    rw [List.getD_eq_getElem?_getD, List.getElem?_eq_getElem hj]
    rfl
  · have h1 : (gatherResults outcomes order d).length = outcomes.length := by
      unfold gatherResults
      rw [foldl_set_length, List.length_replicate]
    rw [List.getElem?_eq_none (by omega : outcomes.length ≤ j),
      List.getElem?_eq_none (by rw [h1]; omega)]

/-- Zipping texts with their own mapped outcomes and postprocessing equals
mapping the postprocessed outcome over the texts. -/
lemma zip_map_outcomes (oracle : String → Except String ClassResultM) :
    ∀ texts : List String,
      ((texts.zip (texts.map oracle)).map (fun p =>
          match p.2 with
          | Except.ok r => r
          | Except.error e => fallbackClassification p.1 e))
        = texts.map (fun t =>
            match oracle t with
            | Except.ok r => r
            | Except.error e => fallbackClassification t e) := by
  intro texts
  induction texts with
  | nil => rfl
  | cons t rest ih =>
    rw [List.map_cons, List.zip_cons_cons, List.map_cons, ih]
    rfl

/-- C9: for every completion order that is a permutation of the task
indices, batch classification returns one result per input text, in input
order — the i-th output is the processing outcome of the i-th text — and a
text whose processing raised an exception yields the
`unknown`/0.1/`fallback_error` fallback result in its slot instead of
propagating. -/
theorem spec_C9 (oracle : String → Except String ClassResultM) (texts : List String)
    (order : List Nat) (h : order.Perm (List.range texts.length)) :
    (batchClassify oracle texts order).length = texts.length ∧
    (∀ i (hi : i < texts.length),
      (batchClassify oracle texts order)[i]? =
        some (match oracle (texts.get ⟨i, hi⟩) with
              | Except.ok r => r
              | Except.error e => fallbackClassification (texts.get ⟨i, hi⟩) e)) ∧
    (∀ i (hi : i < texts.length) (e : String), oracle (texts.get ⟨i, hi⟩) = Except.error e →
      (batchClassify oracle texts order)[i]?
          = some (fallbackClassification (texts.get ⟨i, hi⟩) e) ∧
      fallbackClassification (texts.get ⟨i, hi⟩) e = ⟨"unknown", 1/10, "fallback_error"⟩) := by
  have hb : batchClassify oracle texts order
      = texts.map (fun t =>
          match oracle t with
          | Except.ok r => r
          | Except.error e => fallbackClassification t e) := by
    unfold batchClassify
    rw [gatherResults_perm (texts.map oracle) order _ (by rw [List.length_map]; exact h)]
    exact zip_map_outcomes oracle texts
  refine ⟨by rw [hb, List.length_map], fun i hi => ?_, fun i hi e he => ?_⟩
  · rw [hb, List.getElem?_map, List.getElem?_eq_getElem hi]
    rfl
  · constructor
    · rw [hb, List.getElem?_map, List.getElem?_eq_getElem hi, Option.map_some']
      have hg : texts[i] = texts.get ⟨i, hi⟩ := rfl
      rw [hg, he]
    · rfl

/-- Witness for C9: three texts completing in the order 3rd, 1st, 2nd; the
second text raises, and its slot holds the fallback result while the batch
keeps length 3. -/
theorem spec_C9_witness :
    (batchClassify
        (fun t => if t = "b" then Except.error "boom" else Except.ok ⟨"x", 1, "src"⟩)
        ["a", "b", "c"] [2, 0, 1]).length = 3 ∧
    (batchClassify
        (fun t => if t = "b" then Except.error "boom" else Except.ok ⟨"x", 1, "src"⟩)
        ["a", "b", "c"] [2, 0, 1])[1]?
      = some ⟨"unknown", 1/10, "fallback_error"⟩ := by
  have h := spec_C9
    (fun t => if t = "b" then Except.error "boom" else Except.ok ⟨"x", 1, "src"⟩)
    ["a", "b", "c"] [2, 0, 1] (by decide)
  refine ⟨h.1, ?_⟩
  have h2 := h.2.2 1 (by norm_num) "boom" rfl
  rw [h2.1, h2.2]

/-- The related-contexts branch only succeeds with a result drawn from the
per-context outcomes, and its confidence is the min of the classification
confidence and that result's confidence. -/
lemma tryRelated_spec (intent : String) (classConf : ℚ)
    (rcs : List (String × String)) (ros : List (Option QAResultM))
    (resp : HybridResponseM)
    (h : generateKnowledgeResponse.tryRelated intent classConf rcs ros = some resp) :
    resp.confidence ≤ classConf ∧
    ∃ qr : QAResultM, some qr ∈ ros ∧
      resp.confidence = min classConf qr.confidence ∧
      resp.confidence ≤ qr.confidence := by
  unfold generateKnowledgeResponse.tryRelated at h
  split at h
  · cases h
  · split at h
    · cases h
    · rename_i best rest heq
      split at h
      · have hresp : resp
            = ⟨best.answer, intent, min classConf best.confidence,
               "knowledge", "qa_extraction"⟩ :=
          (Option.some_inj.mp h).symm
        have hmem1 : best ∈ extractFromMultipleModel ros := by
          rw [heq]
          exact List.mem_cons_self _ _
        have hmem2 : best ∈ ros.filterMap id := by
          unfold extractFromMultipleModel sortByConfDesc at hmem1
          exact (List.mergeSort_perm _ _).mem_iff.mp hmem1
        have hmem3 : some best ∈ ros := by
          rcases List.mem_filterMap.mp hmem2 with ⟨o, ho, hoe⟩
          cases o with
          | none => cases hoe
          | some x =>
            have hx : x = best := Option.some_inj.mp hoe
            rw [← hx]
            exact ho
        rw [hresp]
        exact ⟨min_le_left _ _, best, hmem3, rfl, min_le_right _ _⟩
      · cases h

/-- C10: every knowledge-mode response produced from a successful
extraction — from the primary context or from a related context — carries
confidence `min(classification confidence, extraction confidence)`, so it
never exceeds either underlying signal. -/
theorem spec_C10 (intent : String) (classConf : ℚ) (pc : Option String)
    (pr : Option QAResultM) (rcs : List (String × String))
    (ros : List (Option QAResultM)) (resp : HybridResponseM)
    (h : generateKnowledgeResponse intent classConf pc pr rcs ros = some resp) :
    resp.confidence ≤ classConf ∧
    ∃ qr : QAResultM, (pr = some qr ∨ some qr ∈ ros) ∧
      resp.confidence = min classConf qr.confidence ∧
      resp.confidence ≤ qr.confidence := by
  cases pc with
  | none =>
    simp only [generateKnowledgeResponse] at h
    exact Option.noConfusion h
  | some ctx =>
    cases pr with
    | none =>
      simp only [generateKnowledgeResponse] at h
      obtain ⟨h1, qr, hm, he, hle⟩ := tryRelated_spec intent classConf rcs ros resp h
      exact ⟨h1, qr, Or.inr hm, he, hle⟩
    | some r =>
      simp only [generateKnowledgeResponse] at h
      by_cases hc : r.confidence > qaConfidenceThreshold
      · rw [if_pos hc] at h
        have hresp : resp
            = ⟨r.answer, intent, min classConf r.confidence,
               "knowledge", "qa_extraction"⟩ :=
          (Option.some_inj.mp h).symm
        rw [hresp]
        exact ⟨min_le_left _ _, r, Or.inl rfl, rfl, min_le_right _ _⟩
      · rw [if_neg hc] at h
        obtain ⟨h1, qr, hm, he, hle⟩ := tryRelated_spec intent classConf rcs ros resp h
        exact ⟨h1, qr, Or.inr hm, he, hle⟩

/-- Witness for C10: a successful primary-context extraction with
classification confidence 0.9 and extraction confidence 0.5 yields a
response whose confidence exceeds neither. -/
theorem spec_C10_witness :
    ∃ resp : HybridResponseM,
      generateKnowledgeResponse "pricing_basic" (9/10) (some "ctx")
          (some ⟨"ans", 1/2, 1/2⟩) [] [] = some resp ∧
      resp.confidence ≤ 9/10 ∧ resp.confidence ≤ 1/2 := by
  have h : generateKnowledgeResponse "pricing_basic" (9/10) (some "ctx")
      (some ⟨"ans", 1/2, 1/2⟩) [] []
      = some ⟨"ans", "pricing_basic", min (9/10) (1/2), "knowledge", "qa_extraction"⟩ := by
    simp only [generateKnowledgeResponse]
    rw [if_pos (by norm_num [qaConfidenceThreshold])]
  have h2 := spec_C10 "pricing_basic" (9/10) (some "ctx") (some ⟨"ans", 1/2, 1/2⟩) [] [] _ h
  refine ⟨_, h, h2.1, ?_⟩
  obtain ⟨qr, hm, _, hle⟩ := h2.2
  rcases hm with hm | hm
  · have : qr = ⟨"ans", 1/2, 1/2⟩ := Option.some_inj.mp hm.symm
    rw [this] at hle
    exact hle
  · cases hm

/-- Evicting from a nonempty list removes exactly one element. -/
lemma length_removeOldestBy {α : Type} (ts : α → Int) :
    ∀ l : List α, l ≠ [] → (removeOldestBy ts l).length = l.length - 1 := by
  intro l
  induction l with
  | nil => intro h; exact absurd rfl h
  | cons e es ih =>
    intro _
    unfold removeOldestBy
    split
    · simp
    · rcases es with _ | ⟨y, ys⟩
      · rename_i hcond
        exact absurd (by simp) hcond
      · rw [List.length_cons, ih (by simp)]
        simp

/-- Inserting under a key grows the list by at most one entry. -/
lemma length_setKeyBy_le {α : Type} (keyOf : α → String) (k : String) (e : α) :
    ∀ l : List α, (setKeyBy keyOf k e l).length ≤ l.length + 1 := by
  intro l
  induction l with
  | nil => simp [setKeyBy]
  | cons y ys ih =>
    unfold setKeyBy
    split
    · simp
    · rw [List.length_cons, List.length_cons]
      omega

/-- A cache write step never leaves more than `cap` entries (for `cap ≥ 1`
and a store within capacity). -/
lemma slideInsertBy_length {α : Type} (ts : α → Int) (keyOf : α → String) (cap : Nat)
    (hcap : 1 ≤ cap) (l : List α) (e : α) (hl : l.length ≤ cap) :
    (slideInsertBy ts keyOf cap l e).length ≤ cap := by
  unfold slideInsertBy
  split
  · rename_i hfull
    have hne : l ≠ [] := by
      intro h
      rw [h] at hfull
      simp at hfull
      omega
    have h1 := length_setKeyBy_le keyOf (keyOf e) e (removeOldestBy ts l)
    rw [length_removeOldestBy ts l hne] at h1
    omega
  · rename_i hns
    have h1 := length_setKeyBy_le keyOf (keyOf e) e l
    omega

/-- Projection facts for `qaSet`. -/
lemma qaSet_entries (s : QACacheState) (q c : String) (v : QAResultM)
    (ttl : Option Int) (now : Int) :
    (qaSet s q c v ttl now).entries
      = slideInsertBy QAEntry.timestamp QAEntry.key s.maxSize s.entries
          ⟨qaGenKey q c, now, resolveTtl ttl s.defaultTtl, v⟩ := rfl

lemma qaSet_maxSize (s : QACacheState) (q c : String) (v : QAResultM)
    (ttl : Option Int) (now : Int) : (qaSet s q c v ttl now).maxSize = s.maxSize := rfl

lemma qaSet_defaultTtl (s : QACacheState) (q c : String) (v : QAResultM)
    (ttl : Option Int) (now : Int) : (qaSet s q c v ttl now).defaultTtl = s.defaultTtl := rfl

/-- Projection facts for `scSet`. -/
lemma scSet_entries (s : SimpleCacheState) (text : String) (v : ClassResultM) (now : Int) :
    (scSet s text v now).entries
      = slideInsertBy SCEntry.timestamp SCEntry.key s.maxSize
          (s.entries.filter (fun e => ¬ now - e.timestamp > s.ttlSeconds))
          ⟨scGenKey text, now, v⟩ := rfl

lemma scSet_maxSize (s : SimpleCacheState) (text : String) (v : ClassResultM) (now : Int) :
    (scSet s text v now).maxSize = s.maxSize := rfl

lemma scSet_ttlSeconds (s : SimpleCacheState) (text : String) (v : ClassResultM) (now : Int) :
    (scSet s text v now).ttlSeconds = s.ttlSeconds := rfl

/-- Size bound for sequences of QA cache writes. -/
lemma qaRunSets_length (cap : Nat) (hcap : 1 ≤ cap) :
    ∀ (ws : List QAWrite) (s : QACacheState), s.maxSize = cap →
      s.entries.length ≤ cap → (qaRunSets s ws).entries.length ≤ cap := by
  intro ws
  induction ws with
  | nil => intro s _ h; exact h
  | cons w rest ih =>
    intro s hms h
    refine ih (qaSet s w.question w.context w.value none w.now) (by rw [qaSet_maxSize]; exact hms) ?_
    rw [qaSet_entries, hms]
    exact slideInsertBy_length _ _ cap hcap _ _ h

/-- Size bound for sequences of classification cache writes. -/
lemma scRunSets_length (cap : Nat) (hcap : 1 ≤ cap) :
    ∀ (ws : List SCWrite) (s : SimpleCacheState), s.maxSize = cap →
      s.entries.length ≤ cap → (scRunSets s ws).entries.length ≤ cap := by
  intro ws
  induction ws with
  | nil => intro s _ h; exact h
  | cons w rest ih =>
    intro s hms h
    refine ih (scSet s w.text w.value w.now) (by rw [scSet_maxSize]; exact hms) ?_
    rw [scSet_entries, hms]
    refine slideInsertBy_length _ _ cap hcap _ _ ?_
    exact le_trans (List.length_filter_le _ _) h

/-- The eviction scan removes exactly the first entry attaining the minimal
timestamp: there is an `old` entry, of minimal timestamp among all entries,
with `removeOldestBy ts l = l.erase old`. -/
lemma removeOldestBy_spec {α : Type} [DecidableEq α] (ts : α → Int) :
    ∀ l : List α, l ≠ [] →
      ∃ old ∈ l, (∀ x ∈ l, ts old ≤ ts x) ∧ removeOldestBy ts l = l.erase old := by
  intro l
  induction l with
  | nil => intro h; exact absurd rfl h
  | cons e es ih =>
    intro _
    by_cases hmin : es.all (fun x => ¬ ts x < ts e)
    · refine ⟨e, List.mem_cons_self _ _, ?_, ?_⟩
      · intro x hx
        rcases List.mem_cons.mp hx with h | h
        · rw [h]
        · have := List.all_eq_true.mp hmin x h
          simp only [decide_eq_true_eq] at this
          omega
      · unfold removeOldestBy
        rw [if_pos hmin, List.erase_cons_head]
    · have hes : es ≠ [] := by
        intro h
        rw [h] at hmin
        exact hmin (by simp)
      obtain ⟨old, hold, holdmin, holdeq⟩ := ih hes
      have hlt : ts old < ts e := by
        have hmin2 : ¬ ∀ x ∈ es, ¬ ts x < ts e := by
          intro hall
          exact hmin (List.all_eq_true.mpr (fun x hx => decide_eq_true (hall x hx)))
        push_neg at hmin2
        obtain ⟨y, hy, hylt⟩ := hmin2
        have := holdmin y hy
        omega
      have hne : e ≠ old := by
        intro h
        rw [h] at hlt
        omega
      refine ⟨old, List.mem_cons_of_mem _ hold, ?_, ?_⟩
      · intro x hx
        rcases List.mem_cons.mp hx with h | h
        · rw [h]
          omega
        · exact holdmin x h
      · unfold removeOldestBy
        rw [if_neg hmin, holdeq, List.erase_cons_tail (by simp [hne])]

/-- Inserting under a fresh key appends at the end of the dict order. -/
lemma setKeyBy_fresh {α : Type} (keyOf : α → String) (k : String) (e : α) :
    ∀ l : List α, (∀ x ∈ l, keyOf x ≠ k) → setKeyBy keyOf k e l = l ++ [e] := by
  intro l
  induction l with
  | nil => intro _; rfl
  | cons y ys ih =>
    intro hf
    unfold setKeyBy
    rw [if_neg (hf y (List.mem_cons_self _ _)), ih (fun x hx => hf x (List.mem_cons_of_mem _ hx))]
    rfl

/-- A `QACache.set` at capacity with a fresh key evicts exactly the
single oldest-by-timestamp entry and then appends the new one. -/
lemma qaSet_evicts (s : QACacheState) (q c : String) (v : QAResultM) (ttl : Option Int)
    (now : Int) (hfull : s.maxSize ≤ s.entries.length) (hne : s.entries ≠ [])
    (hfresh : ∀ x ∈ s.entries, x.key ≠ qaGenKey q c) :
    ∃ old ∈ s.entries, (∀ x ∈ s.entries, old.timestamp ≤ x.timestamp) ∧
      (qaSet s q c v ttl now).entries
        = s.entries.erase old ++ [⟨qaGenKey q c, now, resolveTtl ttl s.defaultTtl, v⟩] := by
  obtain ⟨old, hold, holdmin, holdeq⟩ := removeOldestBy_spec QAEntry.timestamp s.entries hne
  refine ⟨old, hold, holdmin, ?_⟩
  rw [qaSet_entries]
  unfold slideInsertBy
  rw [if_pos hfull, holdeq]
  exact setKeyBy_fresh _ _ _ _ (fun x hx => hfresh x (List.mem_of_mem_erase hx))

/-- A `SimpleCache.set` at capacity with a fresh key and no expired entries
evicts exactly the single oldest-by-timestamp entry and appends the new
one. -/
lemma scSet_evicts (s : SimpleCacheState) (text : String) (v : ClassResultM) (now : Int)
    (hnoexp : ∀ e ∈ s.entries, ¬ now - e.timestamp > s.ttlSeconds)
    (hfull : s.maxSize ≤ s.entries.length) (hne : s.entries ≠ [])
    (hfresh : ∀ x ∈ s.entries, x.key ≠ scGenKey text) :
    ∃ old ∈ s.entries, (∀ x ∈ s.entries, old.timestamp ≤ x.timestamp) ∧
      (scSet s text v now).entries = s.entries.erase old ++ [⟨scGenKey text, now, v⟩] := by
  have hclean : s.entries.filter (fun e => ¬ now - e.timestamp > s.ttlSeconds) = s.entries := by
    rw [List.filter_eq_self]
    intro a ha
    exact decide_eq_true (hnoexp a ha)
  obtain ⟨old, hold, holdmin, holdeq⟩ := removeOldestBy_spec SCEntry.timestamp s.entries hne
  refine ⟨old, hold, holdmin, ?_⟩
  rw [scSet_entries, hclean]
  unfold slideInsertBy
  rw [if_pos hfull, holdeq]
  exact setKeyBy_fresh _ _ _ _ (fun x hx => hfresh x (List.mem_of_mem_erase hx))

/-- When the head has strictly the smallest timestamp, eviction removes
exactly the head. -/
lemma removeOldestBy_sorted {α : Type} (ts : α → Int) (x : α) (xs : List α)
    (h : ∀ y ∈ xs, ts x < ts y) : removeOldestBy ts (x :: xs) = xs := by
  unfold removeOldestBy
  rw [if_pos]
  exact List.all_eq_true.mpr (fun z hz => decide_eq_true (by have := h z hz; omega))

/-- Sliding-window characterization of repeated cache writes: from a store
within capacity, writing entries with strictly increasing timestamps and
pairwise-distinct fresh keys retains exactly the `cap` most recent
entries. -/
lemma slide_fold_window {α : Type} (ts : α → Int) (keyOf : α → String) (cap : Nat)
    (hcap : 1 ≤ cap) :
    ∀ (es l : List α),
      List.Pairwise (fun a b => ts a < ts b) (l ++ es) →
      ((l ++ es).map keyOf).Nodup →
      l.length ≤ cap →
      es.foldl (slideInsertBy ts keyOf cap) l = (l ++ es).drop ((l ++ es).length - cap) := by
  intro es
  induction es with
  | nil =>
    intro l hp hn hl
    rw [List.append_nil]
    have hz : l.length - cap = 0 := by omega
    rw [hz, List.drop_zero]
    rfl
  | cons e es2 ih =>
    intro l hp hn hl
    have hfreshl : ∀ z ∈ l, keyOf z ≠ keyOf e := by
      intro z hz heq
      have h1 : ((l ++ e :: es2).map keyOf).Nodup := hn
      rw [List.map_append, List.nodup_append] at h1
      exact h1.2.2 (List.mem_map_of_mem keyOf hz)
        (by rw [heq, List.map_cons]; exact List.mem_cons_self _ _)
    rw [List.foldl_cons]
    by_cases hfull : cap ≤ l.length
    · have hlen : l.length = cap := by omega
      rcases l with _ | ⟨x, xs⟩
      · rw [List.length_nil] at hlen
        omega
      · have hp2 : List.Pairwise (fun a b => ts a < ts b) (x :: (xs ++ e :: es2)) := by
          rw [← List.cons_append]
          exact hp
        have hx : ∀ y ∈ xs ++ e :: es2, ts x < ts y := (List.pairwise_cons.mp hp2).1
        have hslide : slideInsertBy ts keyOf cap (x :: xs) e = xs ++ [e] := by
          unfold slideInsertBy
          rw [if_pos hfull]
          rw [removeOldestBy_sorted ts x xs
            (fun y hy => hx y (List.mem_append_left _ hy))]
          exact setKeyBy_fresh keyOf (keyOf e) e xs
            (fun z hz => hfreshl z (List.mem_cons_of_mem _ hz))
        rw [hslide]
        have happ : (xs ++ [e]) ++ es2 = xs ++ e :: es2 := by simp
        have hihyp : List.Pairwise (fun a b => ts a < ts b) ((xs ++ [e]) ++ es2) := by
          rw [happ]
          exact (List.pairwise_cons.mp hp2).2
        have hihn : (((xs ++ [e]) ++ es2).map keyOf).Nodup := by
          rw [happ]
          have h1 : ((x :: (xs ++ e :: es2)).map keyOf).Nodup := by
            rw [← List.cons_append]
            exact hn
          rw [List.map_cons] at h1
          exact (List.nodup_cons.mp h1).2
        have hihl : (xs ++ [e]).length ≤ cap := by
          rw [List.length_append]
          simp only [List.length_cons] at hlen
          simp
          omega
        rw [ih (xs ++ [e]) hihyp hihn hihl, happ]
        have h1 : (x :: xs) ++ e :: es2 = x :: (xs ++ e :: es2) := by simp
        rw [h1]
        have h2 : (x :: (xs ++ e :: es2)).length - cap
            = ((xs ++ e :: es2).length - cap) + 1 := by
          simp only [List.length_cons, List.length_append] at hlen ⊢
          omega
        rw [h2, List.drop_succ_cons]
    · have hslide : slideInsertBy ts keyOf cap l e = l ++ [e] := by
        unfold slideInsertBy
        rw [if_neg hfull]
        exact setKeyBy_fresh keyOf (keyOf e) e l hfreshl
      rw [hslide]
      have happ : (l ++ [e]) ++ es2 = l ++ e :: es2 := by simp
      have hihl : (l ++ [e]).length ≤ cap := by
        rw [List.length_append]
        simp
        omega
      rw [ih (l ++ [e]) (by rw [happ]; exact hp) (by rw [happ]; exact hn) hihl, happ]

/-- A run of `QACache.set` calls is the fold of the write step over the
corresponding entries (capacity and default ttl are constant along it). -/
lemma qaRunSets_entries :
    ∀ (ws : List QAWrite) (s : QACacheState),
      (qaRunSets s ws).entries
        = (ws.map (mkQAEntry s.defaultTtl)).foldl
            (slideInsertBy QAEntry.timestamp QAEntry.key s.maxSize) s.entries := by
  intro ws
  induction ws with
  | nil => intro s; rfl
  | cons w rest ih =>
    intro s
    show (qaRunSets (qaSet s w.question w.context w.value none w.now) rest).entries = _
    rw [ih, List.map_cons, List.foldl_cons]
    rfl

/-- A run of `SimpleCache.set` calls in which no entry ever expires is the
fold of the write step over the corresponding entries. -/
lemma scRunSets_entries_noexpiry :
    ∀ (ws : List SCWrite) (s : SimpleCacheState),
      (∀ w ∈ ws, ∀ e ∈ s.entries, ¬ w.now - e.timestamp > s.ttlSeconds) →
      List.Pairwise (fun a b => ¬ b.now - a.now > s.ttlSeconds) ws →
      (scRunSets s ws).entries
        = (ws.map mkSCEntry).foldl
            (slideInsertBy SCEntry.timestamp SCEntry.key s.maxSize) s.entries := by
  intro ws
  induction ws with
  | nil => intro s _ _; rfl
  | cons w rest ih =>
    intro s hno hpw
    show (scRunSets (scSet s w.text w.value w.now) rest).entries = _
    have hclean : s.entries.filter (fun e => ¬ w.now - e.timestamp > s.ttlSeconds)
        = s.entries := by
      rw [List.filter_eq_self]
      exact fun a ha => decide_eq_true (hno w (List.mem_cons_self _ _) a ha)
    have hsetent : (scSet s w.text w.value w.now).entries
        = slideInsertBy SCEntry.timestamp SCEntry.key s.maxSize s.entries (mkSCEntry w) := by
      rw [scSet_entries, hclean]
      rfl
    have hrest := ih (scSet s w.text w.value w.now) ?hno2 ?hpw2
    case hno2 =>
      intro w2 hw2 e he
      rw [scSet_ttlSeconds]
      rw [hsetent] at he
      rcases mem_slideInsertBy _ _ _ _ _ _ he with h | h
      · rw [h]
        exact (List.pairwise_cons.mp hpw).1 w2 hw2
      · exact hno w2 (List.mem_cons_of_mem _ hw2) e h
    case hpw2 =>
      exact (List.pairwise_cons.mp hpw).2
    rw [hrest, hsetent, List.map_cons, List.foldl_cons]
    rfl

/-- C4: for both caches, with capacity `C ≥ 1`: (i) after any sequence of
set operations from an empty cache the entry count never exceeds `C`;
(ii) a set reaching a full cache first evicts exactly the single
oldest-by-creation-timestamp entry (the first one attaining the minimal
timestamp) and then inserts the new entry; (iii) absent expiry, writing
entries with strictly increasing timestamps and pairwise-distinct keys
retains exactly the `C` most-recently-written entries. -/
theorem spec_C4 :
    (∀ (cap : Nat) (dttl : Int) (ws : List QAWrite), 1 ≤ cap →
       (qaRunSets (qaEmpty cap dttl) ws).entries.length ≤ cap) ∧
    (∀ (cap : Nat) (ttl : Int) (ws : List SCWrite), 1 ≤ cap →
       (scRunSets (scEmpty cap ttl) ws).entries.length ≤ cap) ∧
    (∀ (s : QACacheState) (q c : String) (v : QAResultM) (ttl : Option Int) (now : Int),
       s.maxSize ≤ s.entries.length → s.entries ≠ [] →
       (∀ x ∈ s.entries, x.key ≠ qaGenKey q c) →
       ∃ old ∈ s.entries, (∀ x ∈ s.entries, old.timestamp ≤ x.timestamp) ∧
         (qaSet s q c v ttl now).entries
           = s.entries.erase old ++ [⟨qaGenKey q c, now, resolveTtl ttl s.defaultTtl, v⟩]) ∧
    (∀ (s : SimpleCacheState) (text : String) (v : ClassResultM) (now : Int),
       (∀ e ∈ s.entries, ¬ now - e.timestamp > s.ttlSeconds) →
       s.maxSize ≤ s.entries.length → s.entries ≠ [] →
       (∀ x ∈ s.entries, x.key ≠ scGenKey text) →
       ∃ old ∈ s.entries, (∀ x ∈ s.entries, old.timestamp ≤ x.timestamp) ∧
         (scSet s text v now).entries = s.entries.erase old ++ [⟨scGenKey text, now, v⟩]) ∧
    (∀ (cap : Nat) (dttl : Int) (ws : List QAWrite), 1 ≤ cap →
       List.Pairwise (fun a b => a.now < b.now) ws →
       (ws.map (fun w => qaGenKey w.question w.context)).Nodup →
       (qaRunSets (qaEmpty cap dttl) ws).entries
         = (ws.map (mkQAEntry dttl)).drop (ws.length - cap)) ∧
    (∀ (cap : Nat) (ttl : Int) (ws : List SCWrite), 1 ≤ cap →
       List.Pairwise (fun a b => a.now < b.now) ws →
       (ws.map (fun w => scGenKey w.text)).Nodup →
       List.Pairwise (fun a b => ¬ b.now - a.now > ttl) ws →
       (scRunSets (scEmpty cap ttl) ws).entries
         = (ws.map mkSCEntry).drop (ws.length - cap)) := by
  refine ⟨?_, ?_, qaSet_evicts, scSet_evicts, ?_, ?_⟩
  · intro cap dttl ws hcap
    exact qaRunSets_length cap hcap ws (qaEmpty cap dttl) rfl (by simp [qaEmpty])
  · intro cap ttl ws hcap
    exact scRunSets_length cap hcap ws (scEmpty cap ttl) rfl (by simp [scEmpty])
  · intro cap dttl ws hcap hpw hnd
    rw [qaRunSets_entries ws (qaEmpty cap dttl)]
    have hwin := slide_fold_window QAEntry.timestamp QAEntry.key cap hcap
      (ws.map (mkQAEntry dttl)) [] ?hp ?hn (by simp)
    case hp =>
      rw [List.nil_append, List.pairwise_map]
      exact hpw
    case hn =>
      rw [List.nil_append, List.map_map]
      exact hnd
    rw [show (qaEmpty cap dttl).defaultTtl = dttl from rfl,
      show (qaEmpty cap dttl).maxSize = cap from rfl,
      show (qaEmpty cap dttl).entries = [] from rfl, hwin]
    simp
  · intro cap ttl ws hcap hpw hnd hspan
    rw [scRunSets_entries_noexpiry ws (scEmpty cap ttl)
      (fun w hw e he => absurd he (List.not_mem_nil e)) hspan]
    have hwin := slide_fold_window SCEntry.timestamp SCEntry.key cap hcap
      (ws.map mkSCEntry) [] ?hp ?hn (by simp)
    case hp =>
      rw [List.nil_append, List.pairwise_map]
      exact hpw
    case hn =>
      rw [List.nil_append, List.map_map]
      exact hnd
    rw [show (scEmpty cap ttl).maxSize = cap from rfl,
      show (scEmpty cap ttl).entries = [] from rfl, hwin]
    simp

/-- Witness for C4: three QA-cache writes with distinct keys and increasing
timestamps into a capacity-2 cache retain exactly the two most recent
entries, and the size bound holds. -/
theorem spec_C4_witness :
    (qaRunSets (qaEmpty 2 300)
        [⟨"q1", "c", ⟨"a1", 1, 1⟩, 1⟩, ⟨"q2", "c", ⟨"a2", 1, 1⟩, 2⟩,
         ⟨"q3", "c", ⟨"a3", 1, 1⟩, 3⟩]).entries
      = [⟨"q2||c", 2, 300, ⟨"a2", 1, 1⟩⟩, ⟨"q3||c", 3, 300, ⟨"a3", 1, 1⟩⟩] ∧
    (qaRunSets (qaEmpty 2 300)
        [⟨"q1", "c", ⟨"a1", 1, 1⟩, 1⟩, ⟨"q2", "c", ⟨"a2", 1, 1⟩, 2⟩,
         ⟨"q3", "c", ⟨"a3", 1, 1⟩, 3⟩]).entries.length ≤ 2 := by
  have h := spec_C4.2.2.2.2.1 2 300
    [⟨"q1", "c", ⟨"a1", 1, 1⟩, 1⟩, ⟨"q2", "c", ⟨"a2", 1, 1⟩, 2⟩,
     ⟨"q3", "c", ⟨"a3", 1, 1⟩, 3⟩]
    (by norm_num) (by decide) (by decide)
  have h2 := spec_C4.1 2 300
    [⟨"q1", "c", ⟨"a1", 1, 1⟩, 1⟩, ⟨"q2", "c", ⟨"a2", 1, 1⟩, 2⟩,
     ⟨"q3", "c", ⟨"a3", 1, 1⟩, 3⟩]
    (by norm_num)
  refine ⟨?_, h2⟩
  rw [h]
  rfl

end DistriBert
